import Mathlib

/-!
Verification of the cryptocypher blockchain core (Go) against its
natural-language specification.  The Go sources are shallowly embedded:
pure functions become Lean functions, Go `int`/`int64` become `Int`
(no computation here approaches 2^63), SHA-256 is implemented over byte
lists so every definition is executable, the unbounded mining loop takes
explicit fuel and returns `Option`, and external effects (the archive
file write, wall-clock timestamps) become explicit parameters.
-/

set_option maxRecDepth 100000

namespace Cryptocypher

/-! ### SHA-256 (crypto/sha256), over `List Nat` bytes, words as `Nat % 2^32` -/

def w32 : Nat := 4294967296

def rotr32 (x : Nat) (k : Nat) : Nat :=
  ((x >>> k) ||| (x <<< (32 - k))) % w32

def bigSigma0 (x : Nat) : Nat := (rotr32 x 2) ^^^ (rotr32 x 13) ^^^ (rotr32 x 22)
def bigSigma1 (x : Nat) : Nat := (rotr32 x 6) ^^^ (rotr32 x 11) ^^^ (rotr32 x 25)
def smallSigma0 (x : Nat) : Nat := (rotr32 x 7) ^^^ (rotr32 x 18) ^^^ (x >>> 3)
def smallSigma1 (x : Nat) : Nat := (rotr32 x 17) ^^^ (rotr32 x 19) ^^^ (x >>> 10)

def chFun (x y z : Nat) : Nat := (x &&& y) ^^^ ((x ^^^ (w32 - 1)) &&& z)
def majFun (x y z : Nat) : Nat := (x &&& y) ^^^ (x &&& z) ^^^ (y &&& z)

def sha256K : List Nat :=
  [1116352408, 1899447441, 3049323471, 3921009573,
   961987163, 1508970993, 2453635748, 2870763221,
   3624381080, 310598401, 607225278, 1426881987,
   1925078388, 2162078206, 2614888103, 3248222580,
   3835390401, 4022224774, 264347078, 604807628,
   770255983, 1249150122, 1555081692, 1996064986,
   2554220882, 2821834349, 2952996808, 3210313671,
   3336571891, 3584528711, 113926993, 338241895,
   666307205, 773529912, 1294757372, 1396182291,
   1695183700, 1986661051, 2177026350, 2456956037,
   2730485921, 2820302411, 3259730800, 3345764771,
   3516065817, 3600352804, 4094571909, 275423344,
   430227734, 506948616, 659060556, 883997877,
   958139571, 1322822218, 1537002063, 1747873779,
   1955562222, 2024104815, 2227730452, 2361852424,
   2428436474, 2756734187, 3204031479, 3329325298]

/-- Working state of the compression function: eight 32-bit words. -/
structure Sha256State where
  a : Nat
  b : Nat
  c : Nat
  d : Nat
  e : Nat
  f : Nat
  g : Nat
  h : Nat

def sha256Init : Sha256State :=
  ⟨1779033703, 3144134277, 1013904242, 2773480762,
   1359893119, 2600822924, 528734635, 1541459225⟩

/-- Extend the 16-word message schedule to 64 words. -/
def extendSched : Nat → List Nat → List Nat
  | 0, ws => ws
  | n + 1, ws =>
    let len := ws.length
    let nw := (smallSigma1 (ws.getD (len - 2) 0) + ws.getD (len - 7) 0 +
               smallSigma0 (ws.getD (len - 15) 0) + ws.getD (len - 16) 0) % w32
    extendSched n (ws ++ [nw])

def roundStep (st : Sha256State) (kw : Nat × Nat) : Sha256State :=
  let t1 := (st.h + bigSigma1 st.e + chFun st.e st.f st.g + kw.1 + kw.2) % w32
  let t2 := (bigSigma0 st.a + majFun st.a st.b st.c) % w32
  ⟨(t1 + t2) % w32, st.a, st.b, st.c, (st.d + t1) % w32, st.e, st.f, st.g⟩

/-- Assemble big-endian 32-bit words from a list of bytes. -/
def bytesToWords : List Nat → List Nat
  | b0 :: b1 :: b2 :: b3 :: rest =>
    (b0 * 16777216 + b1 * 65536 + b2 * 256 + b3) :: bytesToWords rest
  | _ => []

def compressChunk (st : Sha256State) (chunk : List Nat) : Sha256State :=
  let ws := extendSched 48 (bytesToWords chunk)
  let r := (sha256K.zip ws).foldl roundStep st
  ⟨(st.a + r.a) % w32, (st.b + r.b) % w32, (st.c + r.c) % w32, (st.d + r.d) % w32,
   (st.e + r.e) % w32, (st.f + r.f) % w32, (st.g + r.g) % w32, (st.h + r.h) % w32⟩

/-- Process the padded message 64 bytes at a time; the fuel (an upper bound
on the number of chunks) makes the recursion structural so the kernel can
reduce it. -/
def processChunks : Nat → List Nat → Sha256State → Sha256State
  | 0, _, st => st
  | _ + 1, [], st => st
  | n + 1, bytes, st => processChunks n (bytes.drop 64) (compressChunk st (bytes.take 64))

/-- Big-endian byte expansion of a natural number, fixed width. -/
def natToBytesBE : Nat → Nat → List Nat
  | 0, _ => []
  | k + 1, x => natToBytesBE k (x / 256) ++ [x % 256]

/-- SHA-256 padding: 0x80, zeros, then the 64-bit big-endian bit length. -/
def sha256Pad (msg : List Nat) : List Nat :=
  let len := msg.length
  let zeros := (120 - (len + 1) % 64) % 64
  msg ++ [128] ++ List.replicate zeros 0 ++ natToBytesBE 8 (len * 8)

def wordToBytes (x : Nat) : List Nat :=
  [(x >>> 24) % 256, (x >>> 16) % 256, (x >>> 8) % 256, x % 256]

def sha256Bytes (msg : List Nat) : List Nat :=
  let padded := sha256Pad msg
  let st := processChunks padded.length padded sha256Init
  wordToBytes st.a ++ wordToBytes st.b ++ wordToBytes st.c ++ wordToBytes st.d ++
  wordToBytes st.e ++ wordToBytes st.f ++ wordToBytes st.g ++ wordToBytes st.h

def hexDigit (n : Nat) : Char :=
  if n < 10 then Char.ofNat (48 + n) else Char.ofNat (87 + n)

def bytesToHex (bs : List Nat) : List Char :=
  bs.flatMap fun b => [hexDigit (b / 16), hexDigit (b % 16)]

/-- UTF-8 encoding of one character's code point. -/
def charUtf8 (c : Char) : List Nat :=
  let n := c.toNat
  if n < 128 then [n]
  else if n < 2048 then [192 + n / 64, 128 + n % 64]
  else if n < 65536 then [224 + n / 4096, 128 + (n / 64) % 64, 128 + n % 64]
  else [240 + n / 262144, 128 + (n / 4096) % 64, 128 + (n / 64) % 64, 128 + n % 64]

def strBytes (s : String) : List Nat := s.data.flatMap charUtf8

/-- Hex-encoded SHA-256 of a string's UTF-8 bytes: Go's
`hex.EncodeToString(h[:])` for `h := sha256.Sum256([]byte(record))`. -/
def sha256hex (s : String) : String := String.mk (bytesToHex (sha256Bytes (strBytes s)))

/-! ### Data model (pkg/blockchain) -/

/-- Transaction (pkg/blockchain/transaction.go).  `Amount` is Go `float64`;
it is carried as an exact rational here and is never read by any hashed or
chain-level operation modeled below.  The optional contract-invocation and
signature fields are omitted: no modeled operation reads them. -/
structure Transaction where
  Sender : String
  Recipient : String
  Amount : ℚ
  Timestamp : Int
  Nonce : Int
deriving Inhabited, DecidableEq, Repr

/-- NewTransaction (transaction.go).  Go stamps `time.Now().Unix()`; the
timestamp is passed explicitly here. -/
def NewTransaction (sender recipient : String) (amount : ℚ) (nonce : Int) (ts : Int) :
    Transaction :=
  ⟨sender, recipient, amount, ts, nonce⟩

/-- Block (blockchain.go).  The `SubBlocks` field makes this a nested
inductive type, so the Go struct is embedded as a single-constructor
inductive with explicit projections below. -/
inductive Block where
  | mk (Index : Int) (Timestamp : Int) (PrevHash : String) (Hash : String) (Nonce : Int)
       (RelationshipType : String) (Receivers : List String)
       (TextData : String) (AudioData : String) (VideoData : String)
       (Transactions : List Transaction) (SubBlocks : List Block)
       (Difficulty : Int) (Category : String) : Block

def Block.Index : Block → Int
  | .mk i _ _ _ _ _ _ _ _ _ _ _ _ _ => i

def Block.Timestamp : Block → Int
  | .mk _ t _ _ _ _ _ _ _ _ _ _ _ _ => t

def Block.PrevHash : Block → String
  | .mk _ _ p _ _ _ _ _ _ _ _ _ _ _ => p

def Block.Hash : Block → String
  | .mk _ _ _ h _ _ _ _ _ _ _ _ _ _ => h

def Block.Nonce : Block → Int
  | .mk _ _ _ _ n _ _ _ _ _ _ _ _ _ => n

def Block.RelationshipType : Block → String
  | .mk _ _ _ _ _ r _ _ _ _ _ _ _ _ => r

def Block.Receivers : Block → List String
  | .mk _ _ _ _ _ _ r _ _ _ _ _ _ _ => r

def Block.TextData : Block → String
  | .mk _ _ _ _ _ _ _ t _ _ _ _ _ _ => t

def Block.AudioData : Block → String
  | .mk _ _ _ _ _ _ _ _ a _ _ _ _ _ => a

def Block.VideoData : Block → String
  | .mk _ _ _ _ _ _ _ _ _ v _ _ _ _ => v

def Block.Transactions : Block → List Transaction
  | .mk _ _ _ _ _ _ _ _ _ _ tx _ _ _ => tx

def Block.SubBlocks : Block → List Block
  | .mk _ _ _ _ _ _ _ _ _ _ _ sb _ _ => sb

def Block.Difficulty : Block → Int
  | .mk _ _ _ _ _ _ _ _ _ _ _ _ d _ => d

def Block.Category : Block → String
  | .mk _ _ _ _ _ _ _ _ _ _ _ _ _ c => c

/-- Assignment `b.Hash = h` on the Go struct. -/
def Block.withHash : Block → String → Block
  | .mk i t p _ n rt rc td ad vd tx sb d c, h => .mk i t p h n rt rc td ad vd tx sb d c

/-- Assignment `b.Nonce = n` on the Go struct. -/
def Block.withNonce : Block → Int → Block
  | .mk i t p h _ rt rc td ad vd tx sb d c, n => .mk i t p h n rt rc td ad vd tx sb d c

/-- Assignment `b.SubBlocks = sb` on the Go struct. -/
def Block.withSubBlocks : Block → List Block → Block
  | .mk i t p h n rt rc td ad vd tx _ d c, sb => .mk i t p h n rt rc td ad vd tx sb d c

instance : Inhabited Block := ⟨.mk 0 0 "" "" 0 "" [] "" "" "" [] [] 0 ""⟩

/-! ### Hashing and mining (blockchain.go) -/

/-- serializeReceivers (blockchain.go): Go's `fmt.Sprintf("%v", receivers)`
for a `[]string` renders the elements space-separated inside brackets. -/
def serializeReceivers (receivers : List String) : String :=
  "[" ++ String.intercalate " " receivers ++ "]"

/-- The record string hashed by CalculateHash.  The Go format string
`"%d%d%s%s%s%s%s%s%d%d"` has ten verbs but eleven operands, so `fmt`
renders the trailing `b.Category` operand through its extra-argument
error text `%!(EXTRA string=...)`, which therefore still feeds the hash. -/
def blockRecord (b : Block) : String :=
  toString b.Index ++ toString b.Timestamp ++ b.PrevHash ++ b.RelationshipType ++
  b.TextData ++ b.AudioData ++ b.VideoData ++ serializeReceivers b.Receivers ++
  toString b.Difficulty ++ toString b.Nonce ++ "%!(EXTRA string=" ++ b.Category ++ ")"

/-- CalculateHash (blockchain.go). -/
def CalculateHash (b : Block) : String := sha256hex (blockRecord b)

/-- Go's `strings.HasPrefix`, on character lists (the target first). -/
def goHasPre : List Char → List Char → Bool
  | [], _ => true
  | _ :: _, [] => false
  | a :: as, b :: bs => (a == b) && goHasPre as bs

/-- MineBlock (blockchain.go).  The Go loop is unbounded; fuel counts the
remaining hash attempts and `none` models non-termination within the fuel.
A negative difficulty (where Go's `strings.Repeat` would panic) is clamped
to an empty target; no modeled call site passes one. -/
def MineBlock (b : Block) (difficulty : Int) : Nat → Option Block
  | 0 => none
  | fuel + 1 =>
    let target := List.replicate difficulty.toNat '0'
    let b1 := b.withHash (CalculateHash b)
    if goHasPre target b1.Hash.data then some b1
    else MineBlock (b1.withNonce (b1.Nonce + 1)) difficulty fuel

/-- CreateBlock (blockchain.go).  Go stamps `time.Now().Unix()` on the block
and on the coinbase transaction; both timestamps are explicit parameters.
The coinbase transaction is prepended to the pool's transactions and the
combined list becomes the block's transaction list. -/
def CreateBlock (index : Int) (prevHash relationshipType : String) (receivers : List String)
    (text audio video : String) (txPool : List Transaction) (difficulty : Int)
    (minerAddress : String) (reward : ℚ) (ts coinbaseTs : Int) (fuel : Nat) : Option Block :=
  let coinbaseTx := NewTransaction "COINBASE" minerAddress reward 0 coinbaseTs
  let block := Block.mk index ts prevHash "" 0 relationshipType receivers
      text audio video (coinbaseTx :: txPool) [] difficulty "main"
  MineBlock block difficulty fuel

/-! ### Pruning and the chain container (prune.go, blockchain.go) -/

/-- PruneAndArchive (prune.go).  Serialization of the archived blocks plus
the timestamp-named file write form one external persistence step, modeled
by the `archiveOk` flag; on failure Go returns an error and leaves
`bc.Blocks` untouched.  The successful `Except.ok` carries the archived
blocks in place of the written file. -/
def PruneAndArchive (blocks : List Block) (retainCount : Nat) (archiveOk : Bool) :
    List Block × Except String (List Block) :=
  if blocks.length ≤ retainCount then (blocks, Except.ok [])
  else
    let archiveBlocks := blocks.take (blocks.length - retainCount)
    if archiveOk then
      (blocks.drop (blocks.length - retainCount), Except.ok archiveBlocks)
    else (blocks, Except.error "failed to write archive file")

/-- AddBlock (blockchain.go): append, then prune to the last 50 blocks when
the chain exceeds `maxBlocks = 100`, logging (and otherwise ignoring) a
pruning failure. -/
def AddBlock (blocks : List Block) (b : Block) (archiveOk : Bool) : List Block :=
  let bs := blocks ++ [b]
  if 100 < bs.length then (PruneAndArchive bs 50 archiveOk).1 else bs

/-- CumulativeDifficulty (blockchain.go). -/
def CumulativeDifficulty (chain : List Block) : Int :=
  chain.foldl (fun total b => total + b.Difficulty) 0

/-- The validation loop of IsValidChain for positions 1 onward: each block's
PrevHash must equal its predecessor's Hash and its Hash must recompute. -/
def chainLinks : Block → List Block → Bool
  | _, [] => true
  | prev, c :: rest =>
    if c.PrevHash ≠ prev.Hash then false
    else if c.Hash ≠ CalculateHash c then false
    else chainLinks c rest

/-- IsValidChain (blockchain.go). -/
def IsValidChain : List Block → Bool
  | [] => false
  | c0 :: rest =>
    if c0.PrevHash ≠ "" then false
    else if c0.Hash ≠ CalculateHash c0 then false
    else chainLinks c0 rest

/-- ReplaceChain (blockchain.go): adopt `newChain` only if it is valid and
its cumulative difficulty strictly exceeds the current chain's.  Returns the
resulting chain together with Go's boolean result. -/
def ReplaceChain (blocks newChain : List Block) : List Block × Bool :=
  if !(IsValidChain newChain) then (blocks, false)
  else if CumulativeDifficulty blocks < CumulativeDifficulty newChain then (newChain, true)
  else (blocks, false)

/-- The sub-block struct literal built inside UpdateBlockWithSubBlockEx,
factored out so the theorems can name it. -/
def subShell (parentBlock : Block) (newText newAudio newVideo subBlockCategory : String)
    (ts : Int) : Block :=
  Block.mk parentBlock.Index ts parentBlock.Hash "" 0
    parentBlock.RelationshipType parentBlock.Receivers newText newAudio newVideo
    [] [] 1 subBlockCategory

/-- UpdateBlockWithSubBlockEx (blockchain.go).  An out-of-range parent index
only logs and returns, leaving the chain unchanged; otherwise the sub-block
is built from the parent, mined at difficulty 1 (fuel as in MineBlock),
re-hashed, and appended to the parent's SubBlocks.  UpdateBlockWithSubBlock
is the same function modulo comments.  Go stamps `time.Now().Unix()`,
passed here as `ts`. -/
def UpdateBlockWithSubBlockEx (blocks : List Block) (parentIndex : Int)
    (newText newAudio newVideo subBlockCategory : String) (ts : Int) (fuel : Nat) :
    Option (List Block) :=
  if parentIndex < 0 ∨ (blocks.length : Int) ≤ parentIndex then some blocks
  else
    let parentBlock := blocks.getD parentIndex.toNat default
    let subBlock := subShell parentBlock newText newAudio newVideo subBlockCategory ts
    match MineBlock subBlock 1 fuel with
    | none => none
    | some mined =>
      some (blocks.set parentIndex.toNat
        (parentBlock.withSubBlocks (parentBlock.SubBlocks ++ [mined.withHash (CalculateHash mined)])))

/-! ### Difficulty adjustment (difficulty.go) -/

/-- Go slice indexing with an `Int` index; `none` models the out-of-range
panic. -/
def listGetI (l : List Block) (i : Int) : Option Block :=
  if i < 0 then none else l.get? i.toNat

/-- AdjustDifficulty (difficulty.go).  `targetTimePerBlock` is a
`time.Duration` in nanoseconds; block timestamps are Unix seconds, so the
actual time is their difference times 10^9.  Go's `int64` division for
`expectedTime/2` truncates toward zero, hence `Int.tdiv`.  `none` models
the panics on out-of-range indexing (empty chain, or `adjustmentInterval`
less than 1 on the else branch). -/
def AdjustDifficulty (chain : List Block) (targetTimePerBlock : Int)
    (adjustmentInterval : Int) : Option Int :=
  let n : Int := chain.length
  if n < adjustmentInterval then
    (listGetI chain (n - 1)).map Block.Difficulty
  else
    match listGetI chain (n - adjustmentInterval), listGetI chain (n - 1) with
    | some start, some stop =>
      let actualTime := (stop.Timestamp - start.Timestamp) * 1000000000
      let expectedTime := targetTimePerBlock * adjustmentInterval
      let currentDifficulty := stop.Difficulty
      if actualTime < Int.tdiv expectedTime 2 then some (currentDifficulty + 1)
      else if expectedTime * 2 < actualTime then
        if 1 < currentDifficulty then some (currentDifficulty - 1) else some currentDifficulty
      else some currentDifficulty
    | _, _ => none

/-! ### Hybrid consensus (consensus.go) -/

/-- CandidateBlock (consensus.go). -/
structure CandidateBlock where
  Blk : Block
  Work : Int
  ValidVotes : Int
deriving Inhabited

/-- HybridConsensusManager (consensus.go).  The Go stake map becomes an
association list; stakes and the threshold are Go `float64`, carried as
exact rationals (see `float067`).  The mutex is dropped: every modeled
operation is a whole atomic step. -/
structure HybridConsensusManager where
  CandidateBlocks : List CandidateBlock
  Stakeholders : List (String × ℚ)
  VoteThreshold : ℚ

/-- The exact value of the IEEE-754 binary64 literal `0.67` in the Go
source: 6034823500676465 × 2^(-53). -/
def float067 : ℚ := 6034823500676465 / 9007199254740992

/-- NewHybridConsensusManager (consensus.go). -/
def NewHybridConsensusManager : HybridConsensusManager :=
  ⟨[], [], float067⟩

/-- ProposeBlock (consensus.go): append a candidate with the block's nonce
as its work and zero votes. -/
def ProposeBlock (hcm : HybridConsensusManager) (b : Block) : HybridConsensusManager :=
  { hcm with CandidateBlocks := hcm.CandidateBlocks ++ [⟨b, b.Nonce, 0⟩] }

/-- Go's `int(x)` conversion from `float64`: truncation toward zero. -/
def ratTrunc (q : ℚ) : Int := if q < 0 then -(Int.floor (-q)) else Int.floor q

/-- CastVote (consensus.go): an out-of-range candidate index or an unknown
validator only logs; an approving vote adds `int(stake * 100)` to the
candidate's tally; a disapproving vote changes nothing.  For the stakes in
play (integral values well below 2^46), `stake * 100` is exact in binary64,
so the rational product matches Go's float product. -/
def CastVote (hcm : HybridConsensusManager) (candidateIndex : Int) (validator : String)
    (vote : Bool) : HybridConsensusManager :=
  if candidateIndex < 0 ∨ (hcm.CandidateBlocks.length : Int) ≤ candidateIndex then hcm
  else if vote then
    match hcm.Stakeholders.lookup validator with
    | none => hcm
    | some stake =>
      let c := hcm.CandidateBlocks.getD candidateIndex.toNat default
      let voted := { c with ValidVotes := c.ValidVotes + ratTrunc (stake * 100) }
      { hcm with CandidateBlocks := hcm.CandidateBlocks.set candidateIndex.toNat voted }
  else hcm

/-- The scan loop of FinalizeBlock: first candidate whose tally meets the
threshold. -/
def findQualified : List CandidateBlock → Int → Option Block
  | [], _ => none
  | c :: rest, th => if th ≤ c.ValidVotes then some c.Blk else findQualified rest th

/-- FinalizeBlock (consensus.go): `threshold := int(float64(totalStake) *
hcm.VoteThreshold)`.  The rational product here is exact where Go rounds the
float product to the nearest binary64; at the specified call
(`totalStake = 100`, threshold literal 0.67) both the exact product
67.000000000000004 and Go's rounded product 67.0 truncate to 67. -/
def FinalizeBlock (hcm : HybridConsensusManager) (totalStake : Int) : Option Block :=
  let threshold := ratTrunc ((totalStake : ℚ) * hcm.VoteThreshold)
  findQualified hcm.CandidateBlocks threshold

/-! ### P2P new-block handling (pkg/p2p/p2p.go) -/

/-- handleNewBlock (p2p.go), from the already-unmarshalled block on: Go
reads `n.Blockchain.Blocks[len(n.Blockchain.Blocks)-1]` before any check,
so `none` models the index-out-of-range panic on an empty local chain.
Otherwise the block is appended exactly when it extends the tip and its
stored hash recomputes; the rebroadcast is a network effect outside the
model. -/
def handleNewBlock (blocks : List Block) (newBlock : Block) : Option (List Block) :=
  match blocks.getLast? with
  | none => none
  | some lastBlock =>
    if newBlock.PrevHash == lastBlock.Hash && newBlock.Hash == CalculateHash newBlock
    then some (blocks ++ [newBlock])
    else some blocks

/-! ### The createBlock/appendChain build discipline (for the chain-validity
round-trip property) -/

/-- Hash of the tip, the previous-hash handed to the next createBlock call
(empty before the genesis block exists). -/
def lastHash (blocks : List Block) : String :=
  match blocks.getLast? with
  | some b => b.Hash
  | none => ""

/-- Chains built solely by CreateBlock — the first block with empty
previous-hash, each later one given the tip's hash and the next index — and
added solely via AddBlock (with its automatic pruning). -/
inductive BuiltChain (archiveOk : Bool) : List Block → Prop where
  | nil : BuiltChain archiveOk []
  | step {bs : List Block} {relationshipType text audio video minerAddress : String}
      {receivers : List String} {txPool : List Transaction} {difficulty : Int} {reward : ℚ}
      {ts coinbaseTs : Int} {fuel : Nat} {b : Block} :
      BuiltChain archiveOk bs →
      CreateBlock (bs.length : Int) (lastHash bs) relationshipType receivers text audio video
        txPool difficulty minerAddress reward ts coinbaseTs fuel = some b →
      BuiltChain archiveOk (AddBlock bs b archiveOk)

/-- A concrete run of the build discipline: n CreateBlock/AddBlock steps at
difficulty 0 (every field empty, all timestamps 0), with the archive write
succeeding. -/
def buildSeq : Nat → List Block
  | 0 => []
  | n + 1 =>
    let bs := buildSeq n
    match CreateBlock (bs.length : Int) (lastHash bs) "" [] "" "" "" [] 0 "" 0 0 0 1 with
    | some b => AddBlock bs b true
    | none => []

/-- The block shell CreateBlock assembles at step n of buildSeq, and its
mined (difficulty-0, first-attempt) form. -/
def seqShell (n : Nat) : Block :=
  Block.mk ((buildSeq n).length : Int) 0 (lastHash (buildSeq n)) "" 0 "" [] "" "" ""
    [NewTransaction "COINBASE" "" 0 0 0] [] 0 "main"

def seqBlock (n : Nat) : Block := (seqShell n).withHash (CalculateHash (seqShell n))

/-- The hash-consistency part of chain validity: every block's stored hash
recomputes and every link matches, with no constraint on the first block's
previous-hash. -/
def chainOk : List Block → Prop
  | [] => True
  | c :: rest => c.Hash = CalculateHash c ∧ chainLinks c rest = true

/-- Count of leading zero hex characters of a digest. -/
def leadingZeros (s : String) : Nat :=
  (s.data.takeWhile (fun c => c == '0')).length

/-! ### Concrete fixtures for witnesses and counterexamples -/

/-- A difficulty-0 block whose very first hash attempt happens to begin with
a zero hex digit (found by search over the text payload). -/
def cxb3 : Block := Block.mk 0 0 "" "" 0 "" [] "t15" "" "" [] [] 0 "main"

/-- A plain block fixture. -/
def wb3 : Block := Block.mk 2 5 "p" "" 7 "rel" ["r"] "t" "a" "v" [] [] 0 "main"

/-- Fixture blocks differing only in their receivers lists, which Go's
`%v` rendering serializes identically. -/
def r6a : Block := Block.mk 1 2 "ph" "hh" 3 "rt" ["a b"] "t" "au" "vi" [] [] 4 "main"

def r6b : Block := Block.mk 1 2 "ph" "hh" 3 "rt" ["a", "b"] "t" "au" "vi" [] [] 4 "main"

/-- Fixture blocks agreeing on every hashed field and differing in the
stored hash, transactions and sub-blocks. -/
def w6a : Block := Block.mk 1 2 "ph" "h1" 3 "rt" ["x"] "t" "au" "vi" [] [] 4 "main"

def w6b : Block :=
  Block.mk 1 2 "ph" "h2" 3 "rt" ["x"] "t" "au" "vi" [⟨"s", "r", 1, 0, 0⟩] [w6a] 4 "main"

/-- An unmined genesis shell at difficulty 1, and its self-hashed form. -/
def gshell : Block := Block.mk 0 0 "" "" 0 "" [] "" "" "" [] [] 1 "main"

def gblock : Block := gshell.withHash (CalculateHash gshell)

/-- Consensus fixtures: one candidate, stakeholders A:50 B:30 C:20. -/
def cb1 : Block := Block.mk 1 0 "" "cbhash" 5 "" [] "" "" "" [] [] 0 "main"

def mgr0 : HybridConsensusManager :=
  ProposeBlock { NewHybridConsensusManager with Stakeholders := [("A", 50), ("B", 30), ("C", 20)] } cb1

def mgrBC : HybridConsensusManager := CastVote (CastVote mgr0 0 "B" true) 0 "C" true

def mgrAB : HybridConsensusManager := CastVote (CastVote mgr0 0 "A" true) 0 "B" true

/-- Sub-block fixtures: a parent and the sub-block shell the Go code builds
from it at timestamp 19, whose difficulty-1 mining succeeds on the very
first attempt (found by search over the timestamp). -/
def par8 : Block := Block.mk 0 0 "" "h" 0 "rel" ["r1"] "" "" "" [] [] 3 "main"

def sub8 : Block := Block.mk 0 19 "h" "" 0 "rel" ["r1"] "tx" "au" "vi" [] [] 1 "meta"

def mined8 : Block := sub8.withHash (CalculateHash sub8)

def finalSub8 : Block := mined8.withHash (CalculateHash mined8)

/-- Difficulty-adjustment fixture: two blocks, one second apart. -/
def w5a : Block := Block.mk 0 100 "" "ha" 0 "" [] "" "" "" [] [] 5 "main"

def w5b : Block := Block.mk 1 101 "ha" "hb" 0 "" [] "" "" "" [] [] 5 "main"

/-- Pruning fixture. -/
def w7a : Block := Block.mk 0 0 "" "a" 0 "" [] "" "" "" [] [] 1 "main"

def w7b : Block := Block.mk 1 0 "a" "b" 0 "" [] "" "" "" [] [] 1 "main"

def w7c : Block := Block.mk 2 0 "b" "c" 0 "" [] "" "" "" [] [] 1 "main"

/-- New-block fixture: a shell extending w7a's tip hash "a", and its
self-hashed form, which handleNewBlock accepts. -/
def nbshell : Block := Block.mk 1 0 "a" "" 0 "" [] "" "" "" [] [] 1 "main"

def nbw : Block := nbshell.withHash (CalculateHash nbshell)

/-! ## Helper lemmas: projections of the Go field assignments -/

@[simp] theorem withHash_Index (b : Block) (h : String) : (b.withHash h).Index = b.Index := by cases b; rfl

@[simp] theorem withHash_Timestamp (b : Block) (h : String) : (b.withHash h).Timestamp = b.Timestamp := by cases b; rfl

@[simp] theorem withHash_PrevHash (b : Block) (h : String) : (b.withHash h).PrevHash = b.PrevHash := by cases b; rfl

@[simp] theorem withHash_Hash (b : Block) (h : String) : (b.withHash h).Hash = h := by cases b; rfl

@[simp] theorem withHash_Nonce (b : Block) (h : String) : (b.withHash h).Nonce = b.Nonce := by cases b; rfl

@[simp] theorem withHash_RelationshipType (b : Block) (h : String) : (b.withHash h).RelationshipType = b.RelationshipType := by cases b; rfl

@[simp] theorem withHash_Receivers (b : Block) (h : String) : (b.withHash h).Receivers = b.Receivers := by cases b; rfl

@[simp] theorem withHash_TextData (b : Block) (h : String) : (b.withHash h).TextData = b.TextData := by cases b; rfl

@[simp] theorem withHash_AudioData (b : Block) (h : String) : (b.withHash h).AudioData = b.AudioData := by cases b; rfl

@[simp] theorem withHash_VideoData (b : Block) (h : String) : (b.withHash h).VideoData = b.VideoData := by cases b; rfl

@[simp] theorem withHash_Transactions (b : Block) (h : String) : (b.withHash h).Transactions = b.Transactions := by cases b; rfl

@[simp] theorem withHash_SubBlocks (b : Block) (h : String) : (b.withHash h).SubBlocks = b.SubBlocks := by cases b; rfl

@[simp] theorem withHash_Difficulty (b : Block) (h : String) : (b.withHash h).Difficulty = b.Difficulty := by cases b; rfl

@[simp] theorem withHash_Category (b : Block) (h : String) : (b.withHash h).Category = b.Category := by cases b; rfl

@[simp] theorem withNonce_Index (b : Block) (n : Int) : (b.withNonce n).Index = b.Index := by cases b; rfl

@[simp] theorem withNonce_Timestamp (b : Block) (n : Int) : (b.withNonce n).Timestamp = b.Timestamp := by cases b; rfl

@[simp] theorem withNonce_PrevHash (b : Block) (n : Int) : (b.withNonce n).PrevHash = b.PrevHash := by cases b; rfl

@[simp] theorem withNonce_Hash (b : Block) (n : Int) : (b.withNonce n).Hash = b.Hash := by cases b; rfl

@[simp] theorem withNonce_Nonce (b : Block) (n : Int) : (b.withNonce n).Nonce = n := by cases b; rfl

@[simp] theorem withNonce_RelationshipType (b : Block) (n : Int) : (b.withNonce n).RelationshipType = b.RelationshipType := by cases b; rfl

@[simp] theorem withNonce_Receivers (b : Block) (n : Int) : (b.withNonce n).Receivers = b.Receivers := by cases b; rfl

@[simp] theorem withNonce_TextData (b : Block) (n : Int) : (b.withNonce n).TextData = b.TextData := by cases b; rfl

@[simp] theorem withNonce_AudioData (b : Block) (n : Int) : (b.withNonce n).AudioData = b.AudioData := by cases b; rfl

@[simp] theorem withNonce_VideoData (b : Block) (n : Int) : (b.withNonce n).VideoData = b.VideoData := by cases b; rfl

@[simp] theorem withNonce_Transactions (b : Block) (n : Int) : (b.withNonce n).Transactions = b.Transactions := by cases b; rfl

@[simp] theorem withNonce_SubBlocks (b : Block) (n : Int) : (b.withNonce n).SubBlocks = b.SubBlocks := by cases b; rfl

@[simp] theorem withNonce_Difficulty (b : Block) (n : Int) : (b.withNonce n).Difficulty = b.Difficulty := by cases b; rfl

@[simp] theorem withNonce_Category (b : Block) (n : Int) : (b.withNonce n).Category = b.Category := by cases b; rfl

@[simp] theorem withSubBlocks_Index (b : Block) (sb : List Block) : (b.withSubBlocks sb).Index = b.Index := by cases b; rfl

@[simp] theorem withSubBlocks_Timestamp (b : Block) (sb : List Block) : (b.withSubBlocks sb).Timestamp = b.Timestamp := by cases b; rfl

@[simp] theorem withSubBlocks_PrevHash (b : Block) (sb : List Block) : (b.withSubBlocks sb).PrevHash = b.PrevHash := by cases b; rfl

@[simp] theorem withSubBlocks_Hash (b : Block) (sb : List Block) : (b.withSubBlocks sb).Hash = b.Hash := by cases b; rfl

@[simp] theorem withSubBlocks_Nonce (b : Block) (sb : List Block) : (b.withSubBlocks sb).Nonce = b.Nonce := by cases b; rfl

@[simp] theorem withSubBlocks_RelationshipType (b : Block) (sb : List Block) : (b.withSubBlocks sb).RelationshipType = b.RelationshipType := by cases b; rfl

@[simp] theorem withSubBlocks_Receivers (b : Block) (sb : List Block) : (b.withSubBlocks sb).Receivers = b.Receivers := by cases b; rfl

@[simp] theorem withSubBlocks_TextData (b : Block) (sb : List Block) : (b.withSubBlocks sb).TextData = b.TextData := by cases b; rfl

@[simp] theorem withSubBlocks_AudioData (b : Block) (sb : List Block) : (b.withSubBlocks sb).AudioData = b.AudioData := by cases b; rfl

@[simp] theorem withSubBlocks_VideoData (b : Block) (sb : List Block) : (b.withSubBlocks sb).VideoData = b.VideoData := by cases b; rfl

@[simp] theorem withSubBlocks_Transactions (b : Block) (sb : List Block) : (b.withSubBlocks sb).Transactions = b.Transactions := by cases b; rfl

@[simp] theorem withSubBlocks_SubBlocks (b : Block) (sb : List Block) : (b.withSubBlocks sb).SubBlocks = sb := by cases b; rfl

@[simp] theorem withSubBlocks_Difficulty (b : Block) (sb : List Block) : (b.withSubBlocks sb).Difficulty = b.Difficulty := by cases b; rfl

@[simp] theorem withSubBlocks_Category (b : Block) (sb : List Block) : (b.withSubBlocks sb).Category = b.Category := by cases b; rfl

/-- The hashed record ignores the stored hash. -/
theorem blockRecord_withHash (b : Block) (h : String) :
    blockRecord (b.withHash h) = blockRecord b := by cases b; rfl

theorem CalculateHash_withHash (b : Block) (h : String) :
    CalculateHash (b.withHash h) = CalculateHash b := by cases b; rfl

/-- The hashed record ignores the sub-block list. -/
theorem CalculateHash_withSubBlocks (b : Block) (sb : List Block) :
    CalculateHash (b.withSubBlocks sb) = CalculateHash b := by cases b; rfl


/-! ## Mining lemmas -/

/-- At difficulty 0 the target is empty, so the very first hash attempt
succeeds and only the stored hash changes. -/
theorem mineBlock_zero (b : Block) (fuel : Nat) :
    MineBlock b 0 (fuel + 1) = some (b.withHash (CalculateHash b)) := rfl

/-- What a successful MineBlock run guarantees: the final hash carries the
target prefix and recomputes from the final fields; every field except the
hash and the nonce is untouched, and the nonce never decreases. -/
theorem mineBlock_spec (d : Int) :
    ∀ (fuel : Nat) (b b' : Block), MineBlock b d fuel = some b' →
      goHasPre (List.replicate d.toNat '0') b'.Hash.data = true ∧
      b'.Hash = CalculateHash b' ∧
      b'.Index = b.Index ∧ b'.Timestamp = b.Timestamp ∧ b'.PrevHash = b.PrevHash ∧
      b'.RelationshipType = b.RelationshipType ∧ b'.Receivers = b.Receivers ∧
      b'.TextData = b.TextData ∧ b'.AudioData = b.AudioData ∧ b'.VideoData = b.VideoData ∧
      b'.Transactions = b.Transactions ∧ b'.SubBlocks = b.SubBlocks ∧
      b'.Difficulty = b.Difficulty ∧ b'.Category = b.Category ∧ b.Nonce ≤ b'.Nonce := by
  intro fuel
  induction fuel with
  | zero => intro b b' h; simp [MineBlock] at h
  | succ n ih =>
    intro b b' h
    simp only [MineBlock] at h
    by_cases hc :
        goHasPre (List.replicate d.toNat '0') ((b.withHash (CalculateHash b)).Hash.data) = true
    · rw [if_pos hc] at h
      obtain rfl : b.withHash (CalculateHash b) = b' := by exact Option.some.inj h
      refine ⟨hc, ?_, by simp, by simp, by simp, by simp, by simp, by simp, by simp, by simp,
        by simp, by simp, by simp, by simp, by simp⟩
      rw [withHash_Hash, CalculateHash_withHash]
    · rw [if_neg hc] at h
      obtain ⟨h1, h2, h3, h4, h5, h6, h7, h8, h9, h10, h11, h12, h13, h14, h15⟩ := ih _ _ h
      refine ⟨h1, h2, by simpa using h3, by simpa using h4, by simpa using h5,
        by simpa using h6, by simpa using h7, by simpa using h8, by simpa using h9,
        by simpa using h10, by simpa using h11, by simpa using h12, by simpa using h13,
        by simpa using h14, ?_⟩
      simp at h15
      omega

/-- A zero-run prefix bounds the count of leading zero characters from
below. -/
theorem goHasPre_zeros_le (n : Nat) :
    ∀ l : List Char, goHasPre (List.replicate n '0') l = true →
      n ≤ (l.takeWhile (fun c => c == '0')).length := by
  induction n with
  | zero => intro l _; simp
  | succ k ih =>
    intro l h
    cases l with
    | nil => simp [List.replicate_succ, goHasPre] at h
    | cons c cs =>
      rw [List.replicate_succ, goHasPre, Bool.and_eq_true] at h
      obtain ⟨hc, hrest⟩ := h
      have hc' : c = '0' := by
        have := (beq_iff_eq).mp hc
        exact this.symm
      subst hc'
      simpa [List.takeWhile] using ih cs hrest


/-! ## C3: proof-of-work postcondition -/

/-- C3 (amended): whenever MineBlock terminates, the final hash carries AT
LEAST d leading zero hex characters (the Go check is a prefix test, so a
luckier hash with more zeros also stops the search) and equals CalculateHash
of the final fields; the nonce search starts from the block's current nonce
(0 for blocks built by CreateBlock) and never decreases it; at difficulty 0
the very first hash attempt succeeds. -/
theorem mine_pow_c3 :
    (∀ (b : Block) (d : Int) (fuel : Nat) (b' : Block), MineBlock b d fuel = some b' →
       goHasPre (List.replicate d.toNat '0') b'.Hash.data = true ∧
       d.toNat ≤ leadingZeros b'.Hash ∧
       b'.Hash = CalculateHash b' ∧ b.Nonce ≤ b'.Nonce) ∧
    (∀ (b : Block) (fuel : Nat), MineBlock b 0 (fuel + 1) = some (b.withHash (CalculateHash b))) := by
  constructor
  · intro b d fuel b' h
    obtain ⟨h1, h2, _, _, _, _, _, _, _, _, _, _, _, _, h15⟩ := mineBlock_spec d fuel b b' h
    exact ⟨h1, goHasPre_zeros_le _ _ h1, h2, h15⟩
  · intro b fuel
    exact mineBlock_zero b fuel

/-- Witness for C3: a concrete difficulty-0 run, with the guarantees
obtained by applying the theorem to it. -/
theorem mine_pow_c3_witness :
    MineBlock wb3 0 1 = some (wb3.withHash (CalculateHash wb3)) ∧
    (wb3.withHash (CalculateHash wb3)).Hash =
      CalculateHash (wb3.withHash (CalculateHash wb3)) ∧
    goHasPre (List.replicate (0 : Int).toNat '0')
      (wb3.withHash (CalculateHash wb3)).Hash.data = true := by
  have h0 := mine_pow_c3.2 wb3 0
  have h1 := mine_pow_c3.1 wb3 0 1 _ h0
  exact ⟨h0, h1.2.2.1, h1.1⟩

/-- Counterexample for C3 as stated: the claim demands EXACTLY d leading
zeros, but mining cxb3 at difficulty 0 terminates on the first attempt with
a hash that happens to begin with a zero hex digit, so the count of leading
zeros is not 0. -/
theorem mine_pow_c3_counterexample :
    MineBlock cxb3 0 1 = some (cxb3.withHash (CalculateHash cxb3)) ∧
    leadingZeros (cxb3.withHash (CalculateHash cxb3)).Hash ≠ 0 := by
  exact ⟨rfl, by decide⟩


/-! ## C6: hash field coverage -/

/-- C6 (amended): CalculateHash is a deterministic function of exactly
index, timestamp, previous-hash, relationship-type, the three payload
strings, the SERIALIZATION of the receivers list, difficulty, nonce and
category: two blocks agreeing on those values (and on nothing else — stored
hash, transactions and sub-blocks are free) receive identical digests.
Because the serialization is Go's `%v` rendering, distinct receivers lists
can serialize identically, so a single-field change does not always change
the digest (see the counterexample). -/
theorem hash_fields_c6 (b1 b2 : Block)
    (hIdx : b1.Index = b2.Index) (hTs : b1.Timestamp = b2.Timestamp)
    (hPrev : b1.PrevHash = b2.PrevHash) (hRel : b1.RelationshipType = b2.RelationshipType)
    (hText : b1.TextData = b2.TextData) (hAudio : b1.AudioData = b2.AudioData)
    (hVideo : b1.VideoData = b2.VideoData)
    (hRecv : serializeReceivers b1.Receivers = serializeReceivers b2.Receivers)
    (hDiff : b1.Difficulty = b2.Difficulty) (hNonce : b1.Nonce = b2.Nonce)
    (hCat : b1.Category = b2.Category) :
    CalculateHash b1 = CalculateHash b2 := by
  unfold CalculateHash blockRecord
  rw [hIdx, hTs, hPrev, hRel, hText, hAudio, hVideo, hRecv, hDiff, hNonce, hCat]

/-- Witness for C6: two blocks agreeing on all hashed fields but differing
in stored hash, transactions and sub-blocks get the same digest. -/
theorem hash_fields_c6_witness :
    CalculateHash w6a = CalculateHash w6b ∧ w6a.Hash ≠ w6b.Hash ∧
    w6a.Transactions ≠ w6b.Transactions ∧ w6a.SubBlocks.length ≠ w6b.SubBlocks.length := by
  refine ⟨hash_fields_c6 w6a w6b rfl rfl rfl rfl rfl rfl rfl rfl rfl rfl rfl,
    by decide, by decide, by decide⟩

/-- Counterexample for C6 as stated: the receivers lists ["a b"] and
["a", "b"] are distinct but render identically under Go's `%v`, so the two
blocks differ in a single hashed field yet share the digest. -/
theorem hash_fields_c6_counterexample :
    CalculateHash r6a = CalculateHash r6b ∧ r6a.Receivers ≠ r6b.Receivers := by
  constructor
  · show sha256hex (blockRecord r6a) = sha256hex (blockRecord r6b)
    exact congrArg sha256hex (by decide)
  · decide

/-! ## C2: fork choice -/

/-- C2: ReplaceChain succeeds exactly when the candidate chain is valid and
strictly heavier; on success the candidate becomes the chain, on failure
(invalid candidate, or equal or lower cumulative difficulty) the local
chain is unchanged. -/
theorem replace_chain_c2 (blocks newChain : List Block) :
    ((ReplaceChain blocks newChain).2 = true ↔
       IsValidChain newChain = true ∧
       CumulativeDifficulty blocks < CumulativeDifficulty newChain) ∧
    ((ReplaceChain blocks newChain).2 = true → (ReplaceChain blocks newChain).1 = newChain) ∧
    ((ReplaceChain blocks newChain).2 = false → (ReplaceChain blocks newChain).1 = blocks) := by
  by_cases hv : IsValidChain newChain = true <;>
    by_cases hlt : CumulativeDifficulty blocks < CumulativeDifficulty newChain <;>
      simp [ReplaceChain, hv, hlt]

/-- Witness for C2: adopting a valid singleton chain of weight 1 over the
empty local chain succeeds and installs it. -/
theorem replace_chain_c2_witness :
    (ReplaceChain [] [gblock]).2 = true ∧ (ReplaceChain [] [gblock]).1 = [gblock] := by
  have hprev : gblock.PrevHash = "" := rfl
  have hhash : gblock.Hash = CalculateHash gshell := rfl
  have hch : CalculateHash gblock = CalculateHash gshell := CalculateHash_withHash gshell _
  have hval : IsValidChain [gblock] = true := by
    simp [IsValidChain, chainLinks, hprev, hhash, hch]
  have hcd : CumulativeDifficulty ([] : List Block) < CumulativeDifficulty [gblock] := by
    have hd : gblock.Difficulty = 1 := rfl
    simp [CumulativeDifficulty, hd]
  have h2 := (replace_chain_c2 [] [gblock]).1.mpr ⟨hval, hcd⟩
  exact ⟨h2, (replace_chain_c2 [] [gblock]).2.1 h2⟩

/-! ## C7: pruning -/

/-- C7: PruneAndArchive is a successful no-op when the chain is short
enough; when it prunes and the archive write succeeds, exactly the most
recent retainCount blocks remain and the archived blocks are exactly the
oldest ones (together they partition the original chain); when the archive
step fails it returns the error and leaves the chain unchanged. -/
theorem prune_and_archive_c7 (blocks : List Block) (retainCount : Nat) (archiveOk : Bool) :
    (blocks.length ≤ retainCount →
       PruneAndArchive blocks retainCount archiveOk = (blocks, Except.ok [])) ∧
    (retainCount < blocks.length → archiveOk = true →
       PruneAndArchive blocks retainCount archiveOk =
         (blocks.drop (blocks.length - retainCount),
          Except.ok (blocks.take (blocks.length - retainCount))) ∧
       (blocks.drop (blocks.length - retainCount)).length = retainCount ∧
       blocks.take (blocks.length - retainCount) ++
         blocks.drop (blocks.length - retainCount) = blocks) ∧
    (retainCount < blocks.length → archiveOk = false →
       PruneAndArchive blocks retainCount archiveOk =
         (blocks, Except.error "failed to write archive file")) := by
  refine ⟨fun hle => ?_, fun hgt hok => ?_, fun hgt hok => ?_⟩
  · simp [PruneAndArchive, hle]
  · subst hok
    have hnle : ¬ blocks.length ≤ retainCount := by omega
    refine ⟨by simp [PruneAndArchive, hnle], by simp; omega, List.take_append_drop _ _⟩
  · subst hok
    have hnle : ¬ blocks.length ≤ retainCount := by omega
    simp [PruneAndArchive, hnle]

/-- Witness for C7: pruning three blocks down to two archives the oldest
one, and a no-op case. -/
theorem prune_and_archive_c7_witness :
    PruneAndArchive [w7a, w7b, w7c] 2 true = ([w7b, w7c], Except.ok [w7a]) ∧
    PruneAndArchive [w7a, w7b, w7c] 3 true = ([w7a, w7b, w7c], Except.ok []) ∧
    PruneAndArchive [w7a, w7b, w7c] 2 false =
      ([w7a, w7b, w7c], Except.error "failed to write archive file") := by
  refine ⟨((prune_and_archive_c7 [w7a, w7b, w7c] 2 true).2.1 (by decide) rfl).1,
    (prune_and_archive_c7 [w7a, w7b, w7c] 3 true).1 (by decide),
    (prune_and_archive_c7 [w7a, w7b, w7c] 2 false).2.2 (by decide) rfl⟩


/-! ## C5: difficulty adjustment -/

/-- Indexing the tip. -/
theorem listGetI_last (chain : List Block) (hne : chain ≠ []) :
    listGetI chain ((chain.length : Int) - 1) = some (chain.getLast hne) := by
  have hlen : 0 < chain.length := List.length_pos.mpr hne
  unfold listGetI
  rw [if_neg (by omega : ¬ ((chain.length : Int) - 1 < 0))]
  have ht : ((chain.length : Int) - 1).toNat = chain.length - 1 := by omega
  rw [ht, List.getLast_eq_getElem chain hne, List.get?_eq_getElem?,
    List.getElem?_eq_getElem (by omega)]

/-- Indexing inside the window. -/
theorem listGetI_getD (chain : List Block) (i : Int) (h0 : 0 ≤ i)
    (hlt : i < (chain.length : Int)) :
    listGetI chain i = some (chain.getD i.toNat default) := by
  unfold listGetI
  rw [if_neg (by omega : ¬ (i < 0))]
  have hn : i.toNat < chain.length := by omega
  rw [List.getD_eq_getElem?_getD, List.get?_eq_getElem?, List.getElem?_eq_getElem hn]
  rfl

/-- C5: with a nonempty chain, AdjustDifficulty keeps the tip's difficulty
when the chain is shorter than the window; otherwise (window size at least
1 and at most the length) it compares the elapsed time over the window with
the expected time, raising the difficulty by 1 below half the expected
time, lowering it by 1 above double the expected time when it exceeds 1,
and keeping it otherwise.  Halving is Go's int64 Duration division
(truncation toward zero). -/
theorem adjust_difficulty_bands_c5 (chain : List Block) (target interval : Int)
    (hne : chain ≠ []) :
    ((chain.length : Int) < interval →
       AdjustDifficulty chain target interval = some (chain.getLast hne).Difficulty) ∧
    (1 ≤ interval → interval ≤ (chain.length : Int) →
       (((chain.getLast hne).Timestamp -
           (chain.getD ((chain.length : Int) - interval).toNat default).Timestamp) *
           1000000000 < Int.tdiv (target * interval) 2 →
          AdjustDifficulty chain target interval = some ((chain.getLast hne).Difficulty + 1)) ∧
       (¬ ((chain.getLast hne).Timestamp -
           (chain.getD ((chain.length : Int) - interval).toNat default).Timestamp) *
           1000000000 < Int.tdiv (target * interval) 2 →
        target * interval * 2 <
          ((chain.getLast hne).Timestamp -
           (chain.getD ((chain.length : Int) - interval).toNat default).Timestamp) *
           1000000000 →
        1 < (chain.getLast hne).Difficulty →
          AdjustDifficulty chain target interval = some ((chain.getLast hne).Difficulty - 1)) ∧
       (¬ ((chain.getLast hne).Timestamp -
           (chain.getD ((chain.length : Int) - interval).toNat default).Timestamp) *
           1000000000 < Int.tdiv (target * interval) 2 →
        (target * interval * 2 <
           ((chain.getLast hne).Timestamp -
            (chain.getD ((chain.length : Int) - interval).toNat default).Timestamp) *
            1000000000 →
         (chain.getLast hne).Difficulty ≤ 1) →
          AdjustDifficulty chain target interval = some (chain.getLast hne).Difficulty)) := by
  constructor
  · intro hlt
    unfold AdjustDifficulty
    rw [if_pos hlt, listGetI_last chain hne]
    rfl
  · intro h1 h2
    have hmain : AdjustDifficulty chain target interval =
        (if ((chain.getLast hne).Timestamp -
              (chain.getD ((chain.length : Int) - interval).toNat default).Timestamp) *
              1000000000 < Int.tdiv (target * interval) 2 then
           some ((chain.getLast hne).Difficulty + 1)
         else if target * interval * 2 <
              ((chain.getLast hne).Timestamp -
               (chain.getD ((chain.length : Int) - interval).toNat default).Timestamp) *
               1000000000 then
           (if 1 < (chain.getLast hne).Difficulty then
              some ((chain.getLast hne).Difficulty - 1)
            else some (chain.getLast hne).Difficulty)
         else some (chain.getLast hne).Difficulty) := by
      unfold AdjustDifficulty
      rw [if_neg (by omega : ¬ ((chain.length : Int) < interval)),
        listGetI_getD chain ((chain.length : Int) - interval) (by omega) (by omega),
        listGetI_last chain hne]
    refine ⟨fun hc1 => ?_, fun hc1 hc2 hc3 => ?_, fun hc1 hc2 => ?_⟩
    · rw [hmain, if_pos hc1]
    · rw [hmain, if_neg hc1, if_pos hc2, if_pos hc3]
    · by_cases hc2' : target * interval * 2 <
          ((chain.getLast hne).Timestamp -
           (chain.getD ((chain.length : Int) - interval).toNat default).Timestamp) * 1000000000
      · rw [hmain, if_neg hc1, if_pos hc2', if_neg (by have := hc2 hc2'; omega)]
      · rw [hmain, if_neg hc1, if_neg hc2']

/-- Witness for C5: a 2-block window mined 1 second apart against a
3-second-per-block target raises the difficulty from 5 to 6. -/
theorem adjust_difficulty_bands_c5_witness :
    AdjustDifficulty [w5a, w5b] 3000000000 2 = some 6 := by
  have h := (adjust_difficulty_bands_c5 [w5a, w5b] 3000000000 2
      (by exact List.cons_ne_nil _ _)).2 (by decide) (by decide)
  exact h.1 (by decide)


/-! ## C10: NEW_BLOCK handling -/

/-- C10: handleNewBlock is total only on a nonempty local chain — on an
empty chain the unconditional read of the last element is out of range
(`none`); on a nonempty chain the incoming block is appended exactly when
its previous-hash equals the tip's hash and its stored hash recomputes, and
the chain is unchanged otherwise. -/
theorem handle_new_block_c10 :
    (∀ nb : Block, handleNewBlock [] nb = none) ∧
    (∀ (blocks : List Block) (nb : Block) (hne : blocks ≠ []),
       handleNewBlock blocks nb =
         some (if nb.PrevHash = (blocks.getLast hne).Hash ∧ nb.Hash = CalculateHash nb
               then blocks ++ [nb] else blocks)) := by
  constructor
  · intro nb; rfl
  · intro blocks nb hne
    unfold handleNewBlock
    rw [List.getLast?_eq_getLast_of_ne_nil hne]
    by_cases h1 : nb.PrevHash = (blocks.getLast hne).Hash <;>
      by_cases h2 : nb.Hash = CalculateHash nb <;>
        simp [h1, h2]

/-- Witness for C10: the empty-chain panic, a rejected block (previous-hash
mismatch, chain unchanged), and an accepted extension. -/
theorem handle_new_block_c10_witness :
    handleNewBlock [] w7a = none ∧
    handleNewBlock [w7b] w7a = some [w7b] ∧
    handleNewBlock [w7a] nbw = some [w7a, nbw] := by
  refine ⟨handle_new_block_c10.1 w7a, ?_, ?_⟩
  · have h := handle_new_block_c10.2 [w7b] w7a (List.cons_ne_nil _ _)
    rw [h, if_neg (fun hcon => absurd hcon.1 (by decide))]
  · have h := handle_new_block_c10.2 [w7a] nbw (List.cons_ne_nil _ _)
    have e1 : nbw.Hash = CalculateHash nbshell := rfl
    have e2 : CalculateHash (nbshell.withHash (CalculateHash nbshell)) =
        CalculateHash nbshell := CalculateHash_withHash nbshell _
    rw [h, if_pos ⟨rfl, e1.trans e2.symm⟩]
    rfl

/-! ## C1: consensus threshold -/

/-- The candidate tallies of the fixture manager. -/
theorem mgr0_cands : mgr0.CandidateBlocks = [⟨cb1, 5, 0⟩] := rfl

theorem mgr0_stake : mgr0.Stakeholders = [("A", (50 : ℚ)), ("B", 30), ("C", 20)] := rfl

theorem mgr0_thr : mgr0.VoteThreshold = float067 := rfl

/-- Go's `int(float64(100) * 0.67)` is 67: the exact product of 100 with
the binary64 value of 0.67 is 67.0000000000000044…, and both that exact
product and Go's rounding of it to 67.0 truncate to 67. -/
theorem ratTrunc_threshold : ratTrunc ((100 : ℚ) * float067) = 67 := by
  norm_num [ratTrunc, float067]

/-- B's approving vote adds int(30 × 100) = 3000. -/
theorem castB : CastVote mgr0 0 "B" true =
    { mgr0 with CandidateBlocks := [⟨cb1, 5, 3000⟩] } := by
  rw [CastVote]
  rw [if_neg (by rw [mgr0_cands]; decide)]
  rw [if_pos rfl]
  rw [mgr0_stake]
  have hba : ("B" == "A") = false := by decide
  simp only [List.lookup, mgr0_cands, hba]
  norm_num
  exact ⟨by norm_num [ratTrunc], mgr0_stake.symm⟩

/-- C's approving vote then adds int(20 × 100) = 2000: tally 5000. -/
theorem castBC : CastVote (CastVote mgr0 0 "B" true) 0 "C" true =
    { mgr0 with CandidateBlocks := [⟨cb1, 5, 5000⟩] } := by
  rw [castB, CastVote]
  rw [if_neg (by decide)]
  rw [if_pos rfl]
  have h1 : ("C" == "A") = false := by decide
  have h2 : ("C" == "B") = false := by decide
  simp only [List.lookup, h1, h2]
  norm_num [ratTrunc]

/-- A's approving vote adds int(50 × 100) = 5000. -/
theorem castA : CastVote mgr0 0 "A" true =
    { mgr0 with CandidateBlocks := [⟨cb1, 5, 5000⟩] } := by
  rw [CastVote]
  rw [if_neg (by rw [mgr0_cands]; decide)]
  rw [if_pos rfl]
  rw [mgr0_stake]
  simp only [List.lookup, mgr0_cands]
  norm_num
  exact ⟨by norm_num [ratTrunc], mgr0_stake.symm⟩

/-- B's approving vote then adds 3000: tally 8000. -/
theorem castAB : CastVote (CastVote mgr0 0 "A" true) 0 "B" true =
    { mgr0 with CandidateBlocks := [⟨cb1, 5, 8000⟩] } := by
  rw [castA, CastVote]
  rw [if_neg (by decide)]
  rw [if_pos rfl]
  have h1 : ("B" == "A") = false := by decide
  simp only [List.lookup, h1]
  norm_num [ratTrunc]

theorem mgrBC_cands : mgrBC.CandidateBlocks = [⟨cb1, 5, 5000⟩] := by
  show (CastVote (CastVote mgr0 0 "B" true) 0 "C" true).CandidateBlocks = _
  rw [castBC]

theorem mgrAB_cands : mgrAB.CandidateBlocks = [⟨cb1, 5, 8000⟩] := by
  show (CastVote (CastVote mgr0 0 "A" true) 0 "B" true).CandidateBlocks = _
  rw [castAB]

/-- With votes from B and C alone (tally 5000 against threshold 67), the
candidate IS finalized. -/
theorem finalizeBC : FinalizeBlock mgrBC 100 = some cb1 := by
  show FinalizeBlock (CastVote (CastVote mgr0 0 "B" true) 0 "C" true) 100 = some cb1
  rw [castBC, FinalizeBlock]
  have hcast : (((100 : Int) : ℚ)) = (100 : ℚ) := by norm_num
  simp only [mgr0_thr, hcast, ratTrunc_threshold, findQualified]
  norm_num

theorem finalizeAB : FinalizeBlock mgrAB 100 = some cb1 := by
  show FinalizeBlock (CastVote (CastVote mgr0 0 "A" true) 0 "B" true) 100 = some cb1
  rw [castAB, FinalizeBlock]
  have hcast : (((100 : Int) : ℚ)) = (100 : ℚ) := by norm_num
  simp only [mgr0_thr, hcast, ratTrunc_threshold, findQualified]
  norm_num

/-- The FinalizeBlock scan is first-match over the candidate list. -/
theorem findQualified_eq_find (cs : List CandidateBlock) (th : Int) :
    findQualified cs th =
      (cs.find? fun c => decide (th ≤ c.ValidVotes)).map CandidateBlock.Blk := by
  induction cs with
  | nil => rfl
  | cons c rest ih =>
    by_cases h : th ≤ c.ValidVotes <;> simp [findQualified, List.find?, h, ih]

/-- C1 (amended): FinalizeBlock returns the first candidate in proposal
order whose tally meets or exceeds `int(totalStake * 0.67)` — a threshold
NOT scaled by the ×100 convention applied to the vote tallies — or none if
no candidate qualifies.  At totalStake 100 the threshold is 67, so in the
specified scenario the tally 5000 from B and C alone already finalizes the
candidate, exactly as the tally 8000 from A and B does. -/
theorem finalize_threshold_c1 :
    (∀ (hcm : HybridConsensusManager) (totalStake : Int),
       FinalizeBlock hcm totalStake =
         (hcm.CandidateBlocks.find? fun c =>
            decide (ratTrunc ((totalStake : ℚ) * hcm.VoteThreshold) ≤ c.ValidVotes)).map
           CandidateBlock.Blk) ∧
    ratTrunc ((100 : ℚ) * float067) = 67 ∧
    mgrBC.CandidateBlocks.map CandidateBlock.ValidVotes = [5000] ∧
    FinalizeBlock mgrBC 100 = some cb1 ∧
    mgrAB.CandidateBlocks.map CandidateBlock.ValidVotes = [8000] ∧
    FinalizeBlock mgrAB 100 = some cb1 := by
  refine ⟨fun hcm totalStake => findQualified_eq_find _ _, ratTrunc_threshold,
    by rw [mgrBC_cands]; rfl, finalizeBC, by rw [mgrAB_cands]; rfl, finalizeAB⟩

/-- Counterexample for C1 as stated: with approving votes from B and C
alone the tally is 5000 and the claim demands that finalizeBlock(100)
return no block, but the code compares 5000 against the unscaled threshold
int(100 × 0.67) = 67 and returns the candidate. -/
theorem finalize_threshold_c1_counterexample :
    mgrBC.CandidateBlocks.map CandidateBlock.ValidVotes = [5000] ∧
    FinalizeBlock mgrBC 100 = some cb1 := by
  exact ⟨by rw [mgrBC_cands]; rfl, finalizeBC⟩


/-! ## C8: sub-block append frame -/

/-- C8: for an in-range parent index, appending a sub-block replaces only
the targeted parent, and only its SubBlocks list, with exactly one new
sub-block appended — one carrying the parent's relationship-type and
receivers, difficulty 1, the parent's hash as previous-hash, the
caller-supplied category, and a self-consistent hash.  The parent's hash
and digest (hence its hash-validity) and every other block of the chain
are untouched.  For an out-of-range index nothing changes. -/
theorem append_sub_block_c8 (blocks : List Block) (parentIndex : Int)
    (t a v cat : String) (ts : Int) (fuel : Nat) :
    ((parentIndex < 0 ∨ (blocks.length : Int) ≤ parentIndex) →
       UpdateBlockWithSubBlockEx blocks parentIndex t a v cat ts fuel = some blocks) ∧
    (0 ≤ parentIndex → parentIndex < (blocks.length : Int) →
       ∀ (p mined s : Block), p = blocks.getD parentIndex.toNat default →
         MineBlock (subShell p t a v cat ts) 1 fuel = some mined →
         s = mined.withHash (CalculateHash mined) →
         UpdateBlockWithSubBlockEx blocks parentIndex t a v cat ts fuel =
           some (blocks.set parentIndex.toNat (p.withSubBlocks (p.SubBlocks ++ [s]))) ∧
         s.PrevHash = p.Hash ∧ s.RelationshipType = p.RelationshipType ∧
         s.Receivers = p.Receivers ∧ s.Difficulty = 1 ∧ s.Category = cat ∧
         s.Hash = CalculateHash s ∧
         CalculateHash (p.withSubBlocks (p.SubBlocks ++ [s])) = CalculateHash p ∧
         (p.withSubBlocks (p.SubBlocks ++ [s])).Hash = p.Hash ∧
         (p.withSubBlocks (p.SubBlocks ++ [s])).Index = p.Index ∧
         (∀ j : Nat, j ≠ parentIndex.toNat →
            (blocks.set parentIndex.toNat (p.withSubBlocks (p.SubBlocks ++ [s]))).get? j =
              blocks.get? j)) := by
  constructor
  · intro h
    rw [UpdateBlockWithSubBlockEx, if_pos h]
  · intro h0 hlt p mined s hp hm hs
    subst hp; subst hs
    obtain ⟨hpre, hself, hIdx, hTs, hPrev, hRel, hRecv, hText, hAudio, hVideo, hTx, hSub,
      hDiff, hCat, hN⟩ := mineBlock_spec 1 fuel _ mined hm
    refine ⟨?_, ?_, ?_, ?_, ?_, ?_, ?_, CalculateHash_withSubBlocks _ _,
      withSubBlocks_Hash _ _, withSubBlocks_Index _ _, ?_⟩
    · rw [UpdateBlockWithSubBlockEx,
        if_neg (by omega : ¬ (parentIndex < 0 ∨ (blocks.length : Int) ≤ parentIndex))]
      simp only [hm]
    · rw [withHash_PrevHash, hPrev]; rfl
    · rw [withHash_RelationshipType, hRel]; rfl
    · rw [withHash_Receivers, hRecv]; rfl
    · rw [withHash_Difficulty, hDiff]; rfl
    · rw [withHash_Category, hCat]; rfl
    · rw [withHash_Hash, CalculateHash_withHash]
    · intro j hj
      rw [List.get?_eq_getElem?, List.get?_eq_getElem?,
        List.getElem?_set_ne (fun hc => hj hc.symm)]

/-- Witness for C8: on a singleton chain, appending a sub-block at index 0
(mined in one attempt at timestamp 19) adds exactly one sub-block to the
parent with the claimed fields, and the parent's digest is unchanged. -/
theorem append_sub_block_c8_witness :
    UpdateBlockWithSubBlockEx [par8] 0 "tx" "au" "vi" "meta" 19 1 =
      some [par8.withSubBlocks (par8.SubBlocks ++ [finalSub8])] ∧
    finalSub8.PrevHash = par8.Hash ∧ finalSub8.RelationshipType = par8.RelationshipType ∧
    finalSub8.Receivers = par8.Receivers ∧ finalSub8.Difficulty = 1 ∧
    finalSub8.Category = "meta" ∧ finalSub8.Hash = CalculateHash finalSub8 ∧
    CalculateHash (par8.withSubBlocks (par8.SubBlocks ++ [finalSub8])) = CalculateHash par8 := by
  have hm8 : MineBlock (subShell par8 "tx" "au" "vi" "meta" 19) 1 1 = some mined8 := rfl
  have h := (append_sub_block_c8 [par8] 0 "tx" "au" "vi" "meta" 19 1).2 (by decide) (by decide)
      par8 mined8 finalSub8 rfl hm8 rfl
  exact ⟨h.1, h.2.1, h.2.2.1, h.2.2.2.1, h.2.2.2.2.1, h.2.2.2.2.2.1, h.2.2.2.2.2.2.1,
    h.2.2.2.2.2.2.2.1⟩


/-! ## C4: chains built by the createBlock/appendChain discipline -/

theorem sha256Bytes_length (m : List Nat) : (sha256Bytes m).length = 32 := by
  simp [sha256Bytes, wordToBytes]

theorem bytesToHex_length (bs : List Nat) : (bytesToHex bs).length = 2 * bs.length := by
  induction bs with
  | nil => rfl
  | cons b rest ih => simp [bytesToHex, List.flatMap_cons] at ih ⊢; omega

/-- A hex digest is never the empty string. -/
theorem sha256hex_ne_empty (s : String) : sha256hex s ≠ "" := by
  intro h
  have hd : bytesToHex (sha256Bytes (strBytes s)) = [] := congrArg String.data h
  have hl := congrArg List.length hd
  rw [bytesToHex_length, sha256Bytes_length] at hl
  simp at hl

theorem CalculateHash_ne_empty (b : Block) : CalculateHash b ≠ "" :=
  sha256hex_ne_empty _

theorem lastHash_eq_getLast (bs : List Block) (hne : bs ≠ []) :
    lastHash bs = (bs.getLast hne).Hash := by
  rw [lastHash, List.getLast?_eq_getLast_of_ne_nil hne]

/-- Unfolding the link check one step. -/
theorem chainLinks_cons (prev c : Block) (rest : List Block) :
    chainLinks prev (c :: rest) = true ↔
      c.PrevHash = prev.Hash ∧ c.Hash = CalculateHash c ∧ chainLinks c rest = true := by
  rw [chainLinks]
  by_cases h1 : c.PrevHash = prev.Hash <;> by_cases h2 : c.Hash = CalculateHash c <;>
    simp [h1, h2]

/-- The link check across an appended tip. -/
theorem chainLinks_append_single (rest : List Block) :
    ∀ (prev b : Block), chainLinks prev (rest ++ [b]) = true ↔
      chainLinks prev rest = true ∧
      b.PrevHash = ((prev :: rest).getLast (List.cons_ne_nil _ _)).Hash ∧
      b.Hash = CalculateHash b := by
  induction rest with
  | nil =>
    intro prev b
    rw [List.nil_append, chainLinks_cons]
    have hgl : ((prev :: ([] : List Block)).getLast (List.cons_ne_nil _ _)) = prev := rfl
    rw [hgl]
    constructor
    · rintro ⟨h1, h2, _⟩; exact ⟨rfl, h1, h2⟩
    · rintro ⟨_, h1, h2⟩; exact ⟨h1, h2, rfl⟩
  | cons c cs ih =>
    intro prev b
    rw [List.cons_append, chainLinks_cons, ih c b, chainLinks_cons]
    constructor
    · rintro ⟨h1, h2, h3, h4, h5⟩
      refine ⟨⟨h1, h2, h3⟩, ?_, h5⟩
      rwa [List.getLast_cons (List.cons_ne_nil _ _)]
    · rintro ⟨⟨h1, h2, h3⟩, h4, h5⟩
      refine ⟨h1, h2, h3, ?_, h5⟩
      rwa [List.getLast_cons (List.cons_ne_nil _ _)] at h4

/-- Appending a self-hashed tip that links to the previous tip preserves
hash-consistency. -/
theorem chainOk_append (bs : List Block) (b : Block) (hok : chainOk bs)
    (hhash : b.Hash = CalculateHash b) (hprev : b.PrevHash = lastHash bs) :
    chainOk (bs ++ [b]) := by
  cases bs with
  | nil => exact ⟨hhash, rfl⟩
  | cons c rest =>
    obtain ⟨h1, h2⟩ := hok
    refine ⟨h1, ?_⟩
    exact (chainLinks_append_single rest c b).mpr
      ⟨h2, by rwa [lastHash_eq_getLast _ (List.cons_ne_nil _ _)] at hprev, hhash⟩

/-- A link check survives dropping its head. -/
theorem chainLinks_of_cons (prev c : Block) (rest : List Block)
    (h : chainLinks prev (c :: rest) = true) : chainLinks c rest = true :=
  ((chainLinks_cons prev c rest).mp h).2.2

/-- Hash-consistency is preserved by dropping a prefix. -/
theorem chainOk_drop (k : Nat) : ∀ bs : List Block, chainOk bs → chainOk (bs.drop k) := by
  induction k with
  | zero => intro bs h; simpa using h
  | succ j ih =>
    intro bs h
    cases bs with
    | nil => exact trivial
    | cons c rest =>
      rw [List.drop_succ_cons]
      apply ih
      cases rest with
      | nil => exact trivial
      | cons d ds =>
        obtain ⟨h1, h2⟩ := h
        exact ⟨((chainLinks_cons c d ds).mp h2).2.1, chainLinks_of_cons c d ds h2⟩

/-- Hash-consistency is preserved by PruneAndArchive's in-memory result. -/
theorem chainOk_prune (bs : List Block) (r : Nat) (ok : Bool) (h : chainOk bs) :
    chainOk (PruneAndArchive bs r ok).1 := by
  rw [PruneAndArchive]
  by_cases hle : bs.length ≤ r
  · rwa [if_pos hle]
  · rw [if_neg hle]
    cases ok with
    | true => simpa using chainOk_drop _ bs h
    | false => simpa using h

/-- Every chain produced by the build discipline is hash-consistent. -/
theorem builtChain_chainOk (ok : Bool) (bs : List Block) (h : BuiltChain ok bs) :
    chainOk bs := by
  induction h with
  | nil => exact trivial
  | step hbs hcreate ih =>
    rename_i bs' relationshipType text audio video minerAddress receivers txPool difficulty
      reward ts coinbaseTs fuel b
    obtain ⟨hpre, hself, hIdx, hTs, hPrev, hRel, hRecv, hText, hAudio, hVideo, hTx, hSub,
      hDiff, hCat, hN⟩ := mineBlock_spec difficulty fuel _ b hcreate
    rw [AddBlock]
    have happ : chainOk (bs' ++ [b]) :=
      chainOk_append bs' b ih hself (by rw [hPrev]; rfl)
    by_cases hlen : 100 < (bs' ++ [b]).length
    · rw [if_pos hlen]
      exact chainOk_prune _ _ _ happ
    · rwa [if_neg hlen]

/-- Validity is hash-consistency plus the genesis condition on the head. -/
theorem isValidChain_iff (bs : List Block) (hne : bs ≠ []) :
    IsValidChain bs = true ↔ chainOk bs ∧ bs.headI.PrevHash = "" := by
  cases bs with
  | nil => exact absurd rfl hne
  | cons c rest =>
    rw [IsValidChain]
    by_cases h1 : c.PrevHash = "" <;> by_cases h2 : c.Hash = CalculateHash c <;>
      simp [h1, h2, chainOk, List.headI]

/-- C4 (amended): a chain built solely via createBlock/appendChain is valid
exactly while its first block still carries the empty previous-hash — that
is, as long as the automatic pruning has not fired.  Once pruning fires the
links and self-hashes still hold, but the first retained block points at an
archived predecessor, so isValidChain returns false (see the
counterexample). -/
theorem built_chain_valid_c4 (ok : Bool) (bs : List Block) (h : BuiltChain ok bs)
    (hne : bs ≠ []) :
    IsValidChain bs = true ↔ bs.headI.PrevHash = "" := by
  rw [isValidChain_iff bs hne]
  have hok := builtChain_chainOk ok bs h
  exact ⟨fun hc => hc.2, fun hh => ⟨hok, hh⟩⟩

/-- One build step, named. -/
theorem buildSeq_succ (n : Nat) :
    buildSeq (n + 1) = AddBlock (buildSeq n) (seqBlock n) true := rfl

/-- Every buildSeq chain is produced by the build discipline. -/
theorem builtChain_buildSeq (n : Nat) : BuiltChain true (buildSeq n) := by
  induction n with
  | zero => exact BuiltChain.nil
  | succ k ih =>
    rw [buildSeq_succ]
    have hcr : CreateBlock (((buildSeq k).length : Int)) (lastHash (buildSeq k)) "" [] "" "" ""
        [] 0 "" 0 0 0 1 = some (seqBlock k) := rfl
    exact BuiltChain.step ih hcr

/-- While no pruning fires, buildSeq grows one block at a time, every block
carries a nonempty digest, and every non-head block a nonempty
previous-hash. -/
theorem buildSeq_invariant (n : Nat) (hn : n ≤ 100) :
    (buildSeq n).length = n ∧ (∀ b ∈ buildSeq n, b.Hash ≠ "") ∧
      (∀ b ∈ (buildSeq n).tail, b.PrevHash ≠ "") := by
  induction n with
  | zero => exact ⟨rfl, fun b hb => absurd hb (List.not_mem_nil b),
      fun b hb => absurd hb (List.not_mem_nil b)⟩
  | succ k ih =>
    obtain ⟨hlen, hhash, htail⟩ := ih (by omega)
    have hsmall : AddBlock (buildSeq k) (seqBlock k) true = buildSeq k ++ [seqBlock k] := by
      rw [AddBlock,
        if_neg (by simp only [List.length_append, hlen, List.length_singleton]; omega)]
    have hstep : buildSeq (k + 1) = buildSeq k ++ [seqBlock k] := by
      rw [buildSeq_succ, hsmall]
    have hbh : (seqBlock k).Hash ≠ "" := by
      rw [seqBlock, withHash_Hash]
      exact CalculateHash_ne_empty _
    refine ⟨by simp [hstep, hlen], ?_, ?_⟩
    · intro b hb
      rw [hstep] at hb
      rcases List.mem_append.mp hb with hb | hb
      · exact hhash b hb
      · rw [List.mem_singleton.mp hb]; exact hbh
    · intro b hb
      rw [hstep] at hb
      cases hkc : buildSeq k with
      | nil =>
        rw [hkc] at hb
        simp at hb
      | cons c rest =>
        rw [hkc, List.cons_append, List.tail_cons] at hb
        rcases List.mem_append.mp hb with hb | hb
        · exact htail b (by rw [hkc, List.tail_cons]; exact hb)
        · rw [List.mem_singleton.mp hb, seqBlock, withHash_PrevHash]
          show lastHash (buildSeq k) ≠ ""
          rw [lastHash_eq_getLast (buildSeq k) (by rw [hkc]; exact List.cons_ne_nil _ _)]
          exact hhash _ (List.getLast_mem _)

/-- A chain whose first block has a nonempty previous-hash is invalid. -/
theorem isValidChain_head_ne (c : Block) (rest : List Block) (h : c.PrevHash ≠ "") :
    IsValidChain (c :: rest) = false := by
  rw [IsValidChain, if_pos h]

/-- Witness for C4: one createBlock/appendChain step yields a valid chain,
by the theorem applied to the build discipline. -/
theorem built_chain_valid_c4_witness : IsValidChain (buildSeq 1) = true := by
  have hne : buildSeq 1 ≠ [] := by
    rw [show buildSeq 1 = [seqBlock 0] from rfl]
    exact List.cons_ne_nil _ _
  exact (built_chain_valid_c4 true (buildSeq 1) (builtChain_buildSeq 1) hne).mpr rfl

/-- Counterexample for C4 as stated: after the 101st createBlock/appendChain
step the automatic pruning fires (archive write succeeding) and truncates
the chain to its last 50 blocks; the retained first block carries a
nonempty previous-hash, so the built chain no longer satisfies
isValidChain. -/
theorem built_chain_valid_c4_counterexample :
    BuiltChain true (buildSeq 101) ∧ IsValidChain (buildSeq 101) = false := by
  refine ⟨builtChain_buildSeq 101, ?_⟩
  obtain ⟨hlen, hhash, htail⟩ := buildSeq_invariant 100 (le_refl 100)
  have hlen101 : (buildSeq 100 ++ [seqBlock 100]).length = 101 := by
    simp [hlen]
  have hpr : (PruneAndArchive (buildSeq 100 ++ [seqBlock 100]) 50 true).1 =
      (buildSeq 100 ++ [seqBlock 100]).drop 51 := by
    simp only [PruneAndArchive, hlen101]
    norm_num
  have hstep : buildSeq 101 = (buildSeq 100 ++ [seqBlock 100]).drop 51 := by
    rw [buildSeq_succ]
    simp only [AddBlock, hlen101]
    rw [if_pos (by omega : (100 : Nat) < 101)]
    exact hpr
  have hne' : (buildSeq 100 ++ [seqBlock 100]).drop 51 ≠ [] := by
    intro hcon
    have hlc := congrArg List.length hcon
    rw [List.length_drop, hlen101] at hlc
    simp at hlc
  obtain ⟨c, rest, hcr⟩ := List.exists_cons_of_ne_nil hne'
  have htl : ((buildSeq 100 ++ [seqBlock 100]).tail).drop 50 =
      (buildSeq 100 ++ [seqBlock 100]).drop 51 := by
    rw [← List.drop_one, List.drop_drop]
  have hcd : c ∈ (buildSeq 100 ++ [seqBlock 100]).drop 51 := by
    rw [hcr]
    exact List.mem_cons_self c rest
  have hcmem : c ∈ (buildSeq 100 ++ [seqBlock 100]).tail := by
    rw [← htl] at hcd
    exact List.drop_subset _ _ hcd
  have hbs_ne : buildSeq 100 ≠ [] := by
    intro hcon
    rw [hcon] at hlen
    simp at hlen
  obtain ⟨c0, rest0, hb0⟩ := List.exists_cons_of_ne_nil hbs_ne
  have htail_app : (buildSeq 100 ++ [seqBlock 100]).tail =
      (buildSeq 100).tail ++ [seqBlock 100] := by
    rw [hb0]
    rfl
  have hprevb : (seqBlock 100).PrevHash ≠ "" := by
    rw [seqBlock, withHash_PrevHash]
    show lastHash (buildSeq 100) ≠ ""
    rw [lastHash_eq_getLast (buildSeq 100) hbs_ne]
    exact hhash _ (List.getLast_mem _)
  have hne51 : c.PrevHash ≠ "" := by
    rw [htail_app] at hcmem
    rcases List.mem_append.mp hcmem with hm | hm
    · exact htail _ hm
    · rw [List.mem_singleton.mp hm]
      exact hprevb
  rw [hstep, hcr]
  exact isValidChain_head_ne _ _ hne51
end Cryptocypher
